import Mathlib

/-!
Verification of the arena-backed Robin Hood open-addressing hash table in
src/table.h (class OpenAddressTable, the canonical variant of the spec).

The embedding is a shallow one:

* The C++ class template OpenAddressTable<Key, Value, Hash> is modelled with
  Key = Value = Nat and the hashing strategy as an explicit parameter
  h : Nat → Nat (the spec calls the hashing strategy pluggable; the default
  HashTraits<uint64_t> instantiation uses XXH64, other instantiations plug in
  any hash).  Keys are only hashed and compared for equality, so Nat is a
  faithful stand-in for uint64_t here.
* The two parallel arrays metadata_ / values_ are modelled as total functions
  Nat → MetaDataEntry and Nat → Nat; every access in src/table.h goes through
  the power-of-two mask, so only indices < capacity are ever consulted.
  Freshly allocated value memory is uninitialized in C++; the model uses 0,
  which is never observable because get only reads slots of status 2, and
  those were always written first.
* uint16_t probe-distance arithmetic keeps the explicit % 65536 of the
  hardware increment; uint8_t status only ever holds the literals 0 and 2
  that the program writes.
* C++ exceptions (std::runtime_error from MemoryArena) become an Except
  layer whose error value carries the table state at the moment of the
  throw, mirroring what an in-place mutated object looks like when an
  exception propagates.
* The unbounded while(true) probe loops become fuel recursion; a result of
  none marks the (unreachable, see the termination theorems) case that a
  loop would have wrapped past its fuel.
* load_factor() >= LOAD_FACTOR_THRESHOLD compares doubles.  For a power-of-two
  capacity, size_ / capacity_ is an exact dyadic rational, and comparing it
  against the double literal 0.85 is equivalent to the exact rational test
  17 * capacity < 20 * size for every capacity below 2^50 (far above anything
  a 2^64-byte address space can back); the model uses the rational test.
-/

namespace OpenAddr

/-- Mirrors MetaDataEntry of src/table.h: key, uint16_t probe distance,
uint8_t status (this program only ever stores status 0 = empty and
2 = occupied).  The padding byte carries no information and is dropped. -/
structure MetaDataEntry where
  key : Nat
  probe_dist : Nat
  status : Nat
deriving DecidableEq, Inhabited

/-- The all-zero entry produced by memset(…, 0, …). -/
def zeroEntry : MetaDataEntry := ⟨0, 0, 0⟩

/-- State of an OpenAddressTable together with its MemoryArena
(src/table.h lines 22-100 and 102-360).  arenaUsed / arenaSize model the
arena fields used_ / arena_size_; the offsets model metadata_offset_ and
values_offset_. -/
structure Table where
  metadata : Nat → MetaDataEntry
  values : Nat → Nat
  capacity : Nat
  size : Nat
  metadataOffset : Nat
  valuesOffset : Nat
  arenaUsed : Nat
  arenaSize : Nat
deriving Inhabited

/-- sizeof(MetaDataEntry) for the HashTable64 instantiation
(uint64_t key + uint16 + uint8 + uint8, padded to alignment 8). -/
def sizeofMeta : Nat := 16

/-- sizeof(Value) for the HashTable64 instantiation (uint64_t). -/
def sizeofValue : Nat := 8

/-- align_to_cacheline: (bytes + 63) & ~63 on size_t, i.e. rounding up to a
multiple of 64 (exact for every value below 2^64 - 63). -/
def align64 (bytes : Nat) : Nat := ((bytes + 63) / 64) * 64

/-- next_pow2 from src/table.h lines 148-154, with the bit-smearing ors
written exactly as in the source. -/
def next_pow2 (x : Nat) : Nat :=
  if x ≤ 2 then 2
  else
    let x := x - 1
    let x := x ||| (x >>> 1)
    let x := x ||| (x >>> 2)
    let x := x ||| (x >>> 4)
    let x := x ||| (x >>> 8)
    let x := x ||| (x >>> 16)
    let x := x ||| (x >>> 32)
    x + 1

/-- MemoryArena::allocate for an element type of the given byte count:
rounds the request up to the cacheline, refuses ("too big") if it would push
used_ past arena_size_, otherwise returns the advanced used_. -/
def arenaAllocateBytes (used A bytes : Nat) : Except String Nat :=
  let aligned := align64 bytes
  if A < used + aligned then .error "too big"
  else .ok (used + aligned)

/-- The while (arena_.get_used() < total_used) arena_.allocate<char>(64)
bump loops of the constructor and of resize.  The fuel passed at every call
site is total - used, which bounds the iteration count because used grows by
64 ≥ 1 per step; when the fuel hits 0 the loop guard used < total is already
false, so the fuel-0 result coincides with the loop exit.  An error carries
the used_ value at the moment of the throw. -/
def bumpLoop (A : Nat) : Nat → Nat → Nat → Except (String × Nat) Nat
  | 0, used, _ => .ok used
  | fuel + 1, used, total =>
    if used < total then
      match arenaAllocateBytes used A 64 with
      | .error e => .error (e, used)
      | .ok u => bumpLoop A fuel u total
    else .ok used

/-- The OpenAddressTable constructor (src/table.h lines 129-146) for an arena
of A bytes: INITIAL_CAPACITY = 64 slots, metadata at offset 0, values at the
next cacheline after the metadata array, metadata zero-initialized, and the
arena usage counter bumped up to the end of the initial layout.  The two
allocate_at_offset calls fail ("out of bounds") when the layout does not fit
in the arena. -/
def mkTable (A : Nat) : Except String Table :=
  let capacity := 64
  let metadata_offset := 0
  let values_offset := align64 (capacity * sizeofMeta)
  if metadata_offset + capacity * sizeofMeta > A then .error "out of bounds"
  else if values_offset + capacity * sizeofValue > A then .error "out of bounds"
  else
    let total_used := values_offset + capacity * sizeofValue
    match bumpLoop A total_used 0 total_used with
    | .error e => .error e.1
    | .ok u =>
      .ok { metadata := fun _ => zeroEntry
            values := fun _ => 0
            capacity := capacity
            size := 0
            metadataOffset := metadata_offset
            valuesOffset := values_offset
            arenaUsed := u
            arenaSize := A }

/-- Ideal slot of a key: Hash::hash(key) & (capacity_ - 1). -/
def home (h : Nat → Nat) (cap k : Nat) : Nat := h k &&& (cap - 1)

/-- The probe loop of insert (src/table.h lines 173-195), carried over the
working key/value/distance exactly as the source does.  Note two source
facts this mirrors faithfully: the status-2 branch overwrites the slot value
with the original value argument WITHOUT comparing keys, and both returning
branches yield true.  The swap branch (Robin Hood displacement) is kept even
though statuses other than 0 and 2 never occur in this program. -/
def insertLoop (origVal cap : Nat) :
    Nat → Nat → Nat → Nat → Nat → Table → Option (Bool × Table)
  | 0, _, _, _, _, _ => none
  | fuel + 1, pos, pd, wkey, wval, t =>
    let m := t.metadata pos
    if m.status = 0 then
      some (true,
        { t with
          metadata := fun j => if j = pos then ⟨wkey, pd, 2⟩ else t.metadata j
          values := fun j => if j = pos then wval else t.values j
          size := t.size + 1 })
    else if m.status = 2 then
      some (true, { t with values := fun j => if j = pos then origVal else t.values j })
    else if m.probe_dist < pd then
      insertLoop origVal cap fuel ((pos + 1) &&& (cap - 1)) ((m.probe_dist + 1) % 65536)
        m.key (t.values pos)
        { t with
          metadata := fun j => if j = pos then ⟨wkey, pd, m.status⟩ else t.metadata j
          values := fun j => if j = pos then wval else t.values j }
    else
      insertLoop origVal cap fuel ((pos + 1) &&& (cap - 1)) ((pd + 1) % 65536) wkey wval t

/-- The probe loop of insert_during_resize (src/table.h lines 323-343):
same walk as insertLoop but with no status-2 early return, so the Robin Hood
swap branch is live here. -/
def resizeInsertLoop (cap : Nat) :
    Nat → Nat → Nat → Nat → Nat → Table → Option Table
  | 0, _, _, _, _, _ => none
  | fuel + 1, pos, pd, wkey, wval, t =>
    let m := t.metadata pos
    if m.status = 0 then
      some
        { t with
          metadata := fun j => if j = pos then ⟨wkey, pd, 2⟩ else t.metadata j
          values := fun j => if j = pos then wval else t.values j
          size := t.size + 1 }
    else if m.probe_dist < pd then
      resizeInsertLoop cap fuel ((pos + 1) &&& (cap - 1)) ((m.probe_dist + 1) % 65536)
        m.key (t.values pos)
        { t with
          metadata := fun j => if j = pos then ⟨wkey, pd, m.status⟩ else t.metadata j
          values := fun j => if j = pos then wval else t.values j }
    else
      resizeInsertLoop cap fuel ((pos + 1) &&& (cap - 1)) ((pd + 1) % 65536) wkey wval t

/-- insert_during_resize (src/table.h lines 315-344). -/
def insert_during_resize (h : Nat → Nat) (k v : Nat) (t : Table) : Option Table :=
  resizeInsertLoop t.capacity t.capacity (home h t.capacity k) 0 k v t

/-- The re-insertion sweep of resize (src/table.h lines 303-307): every old
slot of status 2, in ascending index order, is re-inserted into the new
arrays. -/
def reinsertLoop (h : Nat → Nat) (oldMd : Nat → MetaDataEntry) (oldVals : Nat → Nat) :
    Nat → Table → Option Table
  | 0, t => some t
  | j + 1, t =>
    match reinsertLoop h oldMd oldVals j t with
    | none => none
    | some t1 =>
      if (oldMd j).status = 2 then insert_during_resize h (oldMd j).key (oldVals j) t1
      else some t1

/-- resize (src/table.h lines 272-313).  The new layout is carved past the
end of the current value array; the two allocate_at_offset bounds checks
throw BEFORE the table is touched, then the fresh arrays are installed, old
occupied entries are re-inserted, and finally the arena usage counter is
bumped up to the end of the new layout. -/
def resizeM (h : Nat → Nat) (t : Table) : Except (String × Table) (Option Table) :=
  let old_capacity := t.capacity
  let new_capacity := next_pow2 (t.capacity * 2)
  let current_end := align64 (t.valuesOffset + old_capacity * sizeofValue)
  let new_metadata_offset := current_end
  let new_values_offset := align64 (new_metadata_offset + new_capacity * sizeofMeta)
  if new_metadata_offset + new_capacity * sizeofMeta > t.arenaSize then
    .error ("out of bounds", t)
  else if new_values_offset + new_capacity * sizeofValue > t.arenaSize then
    .error ("out of bounds", t)
  else
    let t1 : Table :=
      { t with
        metadata := fun _ => zeroEntry
        values := fun _ => 0
        metadataOffset := new_metadata_offset
        valuesOffset := new_values_offset
        capacity := new_capacity
        size := 0 }
    match reinsertLoop h t.metadata t.values old_capacity t1 with
    | none => .ok none
    | some t2 =>
      let total_used := new_values_offset + new_capacity * sizeofValue
      match bumpLoop t2.arenaSize (total_used - t2.arenaUsed) t2.arenaUsed total_used with
      | .error (e, u) => .error (e, { t2 with arenaUsed := u })
      | .ok u => .ok (some { t2 with arenaUsed := u })

/-- insert (src/table.h lines 161-196): grow first when
load_factor() >= LOAD_FACTOR_THRESHOLD (the exact rational form of the
double comparison, see the header comment), then run the probe loop from the
key's ideal slot. -/
def insertM (h : Nat → Nat) (k v : Nat) (t : Table) :
    Except (String × Table) (Option (Bool × Table)) :=
  match (if 17 * t.capacity < 20 * t.size then resizeM h t else .ok (some t)) with
  | .error e => .error e
  | .ok none => .ok none
  | .ok (some t1) =>
    match insertLoop v t1.capacity t1.capacity (home h t1.capacity k) 0 k v t1 with
    | none => .ok none
    | some r => .ok (some r)

/-- The probe loop of get (src/table.h lines 207-222). -/
def getLoop (h : Nat → Nat) (k cap : Nat) :
    Nat → Nat → Nat → Table → Option (Option Nat)
  | 0, _, _, _ => none
  | fuel + 1, pos, pd, t =>
    let m := t.metadata pos
    if m.status = 0 then some none
    else if m.status = 2 ∧ m.key = k then some (some (t.values pos))
    else if m.probe_dist < pd then some none
    else getLoop h k cap fuel ((pos + 1) &&& (cap - 1)) ((pd + 1) % 65536) t

/-- get (src/table.h lines 198-223). -/
def getM (h : Nat → Nat) (k : Nat) (t : Table) : Option (Option Nat) :=
  if t.capacity = 0 then some none
  else getLoop h k t.capacity t.capacity (home h t.capacity k) 0 t

/-- The backward-shift repair loop of erase (src/table.h lines 243-256). -/
def shiftLoop (cap : Nat) : Nat → Nat → Table → Option Table
  | 0, _, _ => none
  | fuel + 1, curr, t =>
    let next := (curr + 1) &&& (cap - 1)
    let nm := t.metadata next
    if nm.status ≠ 2 ∨ nm.probe_dist = 0 then
      some { t with metadata := fun j => if j = curr then zeroEntry else t.metadata j }
    else
      shiftLoop cap fuel next
        { t with
          metadata := fun j => if j = curr then ⟨nm.key, nm.probe_dist - 1, nm.status⟩
                               else t.metadata j
          values := fun j => if j = curr then t.values next else t.values j }

/-- The search loop of erase (src/table.h lines 234-268). -/
def eraseLoop (h : Nat → Nat) (k cap : Nat) :
    Nat → Nat → Nat → Table → Option (Bool × Table)
  | 0, _, _, _ => none
  | fuel + 1, pos, pd, t =>
    let m := t.metadata pos
    if m.status = 0 then some (false, t)
    else if m.status = 2 ∧ m.key = k then
      match shiftLoop cap cap pos t with
      | none => none
      | some t1 => some (true, { t1 with size := t1.size - 1 })
    else if m.probe_dist < pd then some (false, t)
    else eraseLoop h k cap fuel ((pos + 1) &&& (cap - 1)) ((pd + 1) % 65536) t

/-- erase (src/table.h lines 225-269). -/
def eraseM (h : Nat → Nat) (k : Nat) (t : Table) : Option (Bool × Table) :=
  if t.capacity = 0 then some (false, t)
  else eraseLoop h k t.capacity t.capacity (home h t.capacity k) 0 t

/-! ### Operation sequences, observable outputs, and the reference map -/

/-- A single table operation of the public interface. -/
inductive Op where
  | ins : Nat → Nat → Op
  | get : Nat → Op
  | del : Nat → Op
deriving DecidableEq

/-- Observable outcome of one operation: the returned boolean or optional
value paired with size() right after the operation.  oerr marks a propagated
arena exception, odiv the (never reached) fuel-exhaustion marker. -/
inductive Obs where
  | ob : Bool → Nat → Obs
  | og : Option Nat → Nat → Obs
  | oerr : Obs
  | odiv : Obs
deriving DecidableEq

/-- Run one operation on the table, producing its observable and the next
state. -/
def stepOp (h : Nat → Nat) (t : Table) : Op → Obs × Table
  | .ins k v =>
    match insertM h k v t with
    | .ok (some (b, t1)) => (.ob b t1.size, t1)
    | .ok none => (.odiv, t)
    | .error (_, t1) => (.oerr, t1)
  | .get k =>
    match getM h k t with
    | some r => (.og r t.size, t)
    | none => (.odiv, t)
  | .del k =>
    match eraseM h k t with
    | some (b, t1) => (.ob b t1.size, t1)
    | none => (.odiv, t)

/-- Observable trace of a whole operation sequence. -/
def runOps (h : Nat → Nat) (t : Table) : List Op → List Obs
  | [] => []
  | op :: ops =>
    let r := stepOp h t op
    r.1 :: runOps h r.2 ops

/-- Final table state after a whole operation sequence. -/
def finalTable (h : Nat → Nat) (t : Table) : List Op → Table
  | [] => t
  | op :: ops => finalTable h (stepOp h t op).2 ops

/-- Reference associative map: a duplicate-free association list. -/
def RefMap := List (Nat × Nat)

/-- Reference lookup. -/
def refGet (m : List (Nat × Nat)) (k : Nat) : Option Nat :=
  (m.find? (fun p => p.1 == k)).map (fun p => p.2)

/-- Reference insert; the boolean reports "inserted new" (true) versus
"updated existing" (false). -/
def refInsert (m : List (Nat × Nat)) (k v : Nat) : Bool × List (Nat × Nat) :=
  if (m.find? (fun p => p.1 == k)).isSome then
    (false, m.map (fun p => if p.1 == k then (k, v) else p))
  else
    (true, (k, v) :: m)

/-- Reference erase; the boolean reports whether the key was present. -/
def refErase (m : List (Nat × Nat)) (k : Nat) : Bool × List (Nat × Nat) :=
  if (m.find? (fun p => p.1 == k)).isSome then
    (true, m.filter (fun p => p.1 != k))
  else
    (false, m)

/-- Reference step with the same observables as stepOp. -/
def refStep (m : List (Nat × Nat)) : Op → Obs × List (Nat × Nat)
  | .ins k v =>
    let r := refInsert m k v
    (.ob r.1 r.2.length, r.2)
  | .get k => (.og (refGet m k) m.length, m)
  | .del k =>
    let r := refErase m k
    (.ob r.1 r.2.length, r.2)

/-- Observable trace of the reference map on an operation sequence, started
empty. -/
def refRunFrom (m : List (Nat × Nat)) : List Op → List Obs
  | [] => []
  | op :: ops =>
    let r := refStep m op
    r.1 :: refRunFrom r.2 ops

/-- Reference trace from the empty map. -/
def refRun (ops : List Op) : List Obs := refRunFrom [] ops

/-- An explicit hashing strategy used for the concrete runs: the identity
hash (a legitimate Hash instantiation of the class template; libstdc++'s
std::hash<uint64_t> is this function). -/
def idHash : Nat → Nat := fun k => k

/-- Freshly constructed table over the default 1 GiB arena
(OpenAddressTable() with arena_size = 1ULL << 30). -/
def t0 : Table :=
  match mkTable (2 ^ 30) with
  | .ok t => t
  | .error _ => default

/-! ### Concrete runs used by the counterexample and code-bug theorems -/

set_option maxRecDepth 10000

/-- Fifty-five inserts of keys 0..54 (values 10·k) with the identity hash:
every key lands in its own slot of the capacity-64 fresh table and no insert
reaches the growth threshold beforehand. -/
def c4ops : List Op := (List.range 55).map (fun i => .ins i (10 * i))

/-- Reachable state used by several witnesses: the fresh table after
insert(0, 10). -/
def tIns : Table :=
  match insertM idHash 0 10 t0 with
  | .ok (some (_, u)) => u
  | _ => t0

/-- Result of growing tIns, used by the resize witnesses. -/
def tResz : Table :=
  match resizeM idHash tIns with
  | .ok (some u) => u
  | _ => tIns

/-- Result of erasing key 0 from tIns, used by the erase witness. -/
def tDel : Table :=
  match eraseM idHash 0 tIns with
  | some (_, u) => u
  | _ => tIns

/-- Result of re-inserting key 0 with value 11 into tIns, used by the
update witness. -/
def tUpd : Table :=
  match insertM idHash 0 11 tIns with
  | .ok (some (_, u)) => u
  | _ => tIns

/-- The explicit table record produced by the constructor over an arena of
A ≥ 1536 bytes (see mkTable_char). -/
def initRec (A : Nat) : Table :=
  { metadata := fun _ => zeroEntry, values := fun _ => 0,
    capacity := 64, size := 0, metadataOffset := 0, valuesOffset := 1024,
    arenaUsed := 1536, arenaSize := A }

/-! ### Proof-layer definitions: occupancy count, abstract lookup,
reachability, and the state invariant -/

/-- Number of status-2 slots among indices 0..cap-1 of a metadata array. -/
def occCountF (cap : Nat) (md : Nat → MetaDataEntry) : Nat :=
  ((Finset.range cap).filter (fun i => (md i).status = 2)).card

/-- Number of occupied slots of a table. -/
def occCount (t : Table) : Nat := occCountF t.capacity t.metadata

/-- The key/value association a table state denotes: a key is bound exactly
when its ideal slot holds it with status 2.  On every reachable state of
this program this is precisely what get observes (see getM_char). -/
def tableLookup (h : Nat → Nat) (t : Table) (k : Nat) : Option Nat :=
  let p := home h t.capacity k
  if (t.metadata p).status = 2 ∧ (t.metadata p).key = k then some (t.values p)
  else none

/-- State invariant of the (as-written) insert/erase/resize code: the
capacity is a power of two of at least 64; every slot is empty (status 0) or
occupied (status 2) sitting at its key's ideal slot with probe distance 0;
size counts the occupied slots; and the arena usage counter sits exactly at
the end of the current layout, within the arena, on a cacheline boundary.
Probe distance 0 everywhere is forced by the missing key comparison on
line 184 of src/table.h: the probe loop of insert can never get past its
first slot, so displaced entries are never created and resize re-inserts
keys whose ideal slots are pairwise distinct. -/
structure Inv (h : Nat → Nat) (t : Table) : Prop where
  cap_pow : ∃ m, 6 ≤ m ∧ t.capacity = 2 ^ m
  slots : ∀ i, i < t.capacity → (t.metadata i).status = 0 ∨
      ((t.metadata i).status = 2 ∧ (t.metadata i).probe_dist = 0 ∧
        home h t.capacity (t.metadata i).key = i)
  size_eq : t.size = occCount t
  used_eq : t.arenaUsed = t.valuesOffset + t.capacity * sizeofValue
  used_le : t.arenaUsed ≤ t.arenaSize
  voff_align : 64 ∣ t.valuesOffset

/-- Reachable table states: built by the constructor over an arena of A
bytes and closed under the mutating public operations.  An insert whose
growth throws leaves the object unchanged (see the C10 theorem), so error
outcomes add no new states. -/
inductive Reach (A : Nat) (h : Nat → Nat) : Table → Prop
  | init : ∀ t, mkTable A = .ok t → Reach A h t
  | ins : ∀ t k v b t', Reach A h t → insertM h k v t = .ok (some (b, t')) → Reach A h t'
  | del : ∀ t k b t', Reach A h t → eraseM h k t = some (b, t') → Reach A h t'

/-! ### Arithmetic, bit-level and counting helper lemmas -/

theorem dvd_align64 (b : Nat) : 64 ∣ align64 b := Dvd.intro_left _ rfl

theorem align64_of_dvd {b : Nat} (hb : 64 ∣ b) : align64 b = b := by
  obtain ⟨c, rfl⟩ := hb
  unfold align64
  rw [Nat.mul_add_div (by norm_num)]
  norm_num [Nat.mul_comm]

theorem le_align64 (b : Nat) : b ≤ align64 b := by
  unfold align64
  have h1 := Nat.div_add_mod (b + 63) 64
  have h2 : (b + 63) % 64 < 64 := Nat.mod_lt _ (by norm_num)
  omega

theorem mask_mod (x m : Nat) : x &&& (2 ^ m - 1) = x % 2 ^ m :=
  Nat.and_pow_two_sub_one_eq_mod x m

theorem home_mod (h : Nat → Nat) (m k : Nat) : home h (2 ^ m) k = h k % 2 ^ m := by
  unfold home
  exact mask_mod (h k) m

theorem home_lt (h : Nat → Nat) (m k : Nat) : home h (2 ^ m) k < 2 ^ m := by
  rw [home_mod]
  exact Nat.mod_lt _ (Nat.pos_pow_of_pos m (by norm_num))

theorem step_mask (p m : Nat) : (p + 1) &&& (2 ^ m - 1) = (p + 1) % 2 ^ m :=
  mask_mod (p + 1) m

theorem succ_mod_ne {c p : Nat} (hc : 2 ≤ c) (hp : p < c) : (p + 1) % c ≠ p := by
  rcases Nat.lt_or_ge (p + 1) c with hlt | hge
  · rw [Nat.mod_eq_of_lt hlt]
    omega
  · have heq : p + 1 = c := by omega
    rw [heq, Nat.mod_self]
    omega

theorem home_reduce (h : Nat → Nat) (m k : Nat) :
    home h (2 ^ m) k = home h (2 ^ (m + 1)) k % 2 ^ m := by
  rw [home_mod, home_mod]
  exact (Nat.mod_mod_of_dvd (h k) (pow_dvd_pow 2 (Nat.le_succ m))).symm

theorem lor_two_pow_sub_one (n y : Nat) (hy : y < 2 ^ n) :
    (2 ^ n - 1) ||| y = 2 ^ n - 1 := by
  apply Nat.eq_of_testBit_eq
  intro i
  rw [Nat.testBit_lor]
  rcases Nat.lt_or_ge i n with hi | hi
  · simp [Nat.testBit_two_pow_sub_one, hi]
  · have h1 : Nat.testBit (2 ^ n - 1) i = false := by
      simp only [Nat.testBit_two_pow_sub_one]
      simp
      omega
    have h2 : Nat.testBit y i = false :=
      Nat.testBit_lt_two_pow (lt_of_lt_of_le hy (Nat.pow_le_pow_right (by norm_num) hi))
    simp [h1, h2]

theorem smear_step (n j : Nat) : (2 ^ n - 1) ||| ((2 ^ n - 1) >>> j) = 2 ^ n - 1 := by
  apply lor_two_pow_sub_one
  have h1 : (2 ^ n - 1) >>> j ≤ 2 ^ n - 1 := by
    rw [Nat.shiftRight_eq_div_pow]
    exact Nat.div_le_self _ _
  have h2 : 1 ≤ 2 ^ n := Nat.one_le_two_pow
  omega

theorem next_pow2_two_pow {n : Nat} (hn : 2 ≤ n) : next_pow2 (2 ^ n) = 2 ^ n := by
  have h4 : 4 ≤ 2 ^ n := by
    calc 4 = 2 ^ 2 := rfl
    _ ≤ 2 ^ n := Nat.pow_le_pow_right (by norm_num) hn
  unfold next_pow2
  rw [if_neg (by omega)]
  simp only [smear_step]
  have h1 : 1 ≤ 2 ^ n := Nat.one_le_two_pow
  omega

theorem bumpLoop_ok (A : Nat) : ∀ fuel used total, total - used ≤ fuel →
    used ≤ total → 64 ∣ used → 64 ∣ total → total ≤ A →
    bumpLoop A fuel used total = .ok total := by
  intro fuel
  induction fuel with
  | zero =>
    intro used total h1 h2 _ _ _
    have heq : used = total := by omega
    subst heq
    rfl
  | succ f ih =>
    intro used total h1 h2 hdu hdt hA
    unfold bumpLoop
    by_cases hlt : used < total
    · rw [if_pos hlt]
      have hstep : used + 64 ≤ total := by
        obtain ⟨a, ha⟩ := hdu
        obtain ⟨b, hb⟩ := hdt
        omega
      have halloc : arenaAllocateBytes used A 64 = .ok (used + 64) := by
        unfold arenaAllocateBytes
        have h64 : align64 64 = 64 := by decide
        rw [h64, if_neg (by omega)]
      rw [halloc]
      exact ih (used + 64) total (by omega) hstep
        (Nat.dvd_add hdu (by norm_num)) hdt hA
    · rw [if_neg hlt]
      have heq : used = total := by omega
      rw [heq]

/-! ### Occupancy counting lemmas -/

theorem occCountF_zero_md (cap : Nat) : occCountF cap (fun _ => zeroEntry) = 0 := by
  unfold occCountF
  rw [Finset.filter_false_of_mem (by intro x _; simp [zeroEntry])]
  exact Finset.card_empty

theorem occCountF_le (cap : Nat) (md : Nat → MetaDataEntry) : occCountF cap md ≤ cap := by
  unfold occCountF
  calc ((Finset.range cap).filter (fun i => (md i).status = 2)).card
      ≤ (Finset.range cap).card := Finset.card_filter_le _ _
  _ = cap := Finset.card_range cap

theorem occCountF_split (cap i : Nat) (hi : i < cap) (md : Nat → MetaDataEntry) :
    occCountF cap md =
      (∑ j ∈ (Finset.range cap).erase i, if (md j).status = 2 then 1 else 0)
        + (if (md i).status = 2 then 1 else 0) := by
  unfold occCountF
  rw [Finset.card_filter]
  exact (Finset.sum_erase_add _ _ (Finset.mem_range.mpr hi)).symm

theorem occCountF_congr (cap : Nat) (md md' : Nat → MetaDataEntry)
    (hmd : ∀ j, j < cap → md j = md' j) : occCountF cap md = occCountF cap md' := by
  unfold occCountF
  rw [Finset.filter_congr (fun j hj => by rw [hmd j (Finset.mem_range.mp hj)])]

theorem occCountF_update_erase_sum (cap i : Nat) (md : Nat → MetaDataEntry)
    (e : MetaDataEntry) :
    (∑ j ∈ (Finset.range cap).erase i,
        if ((fun j => if j = i then e else md j) j).status = 2 then 1 else 0)
      = ∑ j ∈ (Finset.range cap).erase i, if (md j).status = 2 then 1 else 0 :=
  Finset.sum_congr rfl (fun j hj => by
    have hne : j ≠ i := Finset.ne_of_mem_erase hj
    simp [hne])

theorem occCountF_update_new (cap i : Nat) (hi : i < cap) (md : Nat → MetaDataEntry)
    (e : MetaDataEntry) (h0 : (md i).status ≠ 2) (he : e.status = 2) :
    occCountF cap (fun j => if j = i then e else md j) = occCountF cap md + 1 := by
  rw [occCountF_split cap i hi md, occCountF_split cap i hi (fun j => if j = i then e else md j),
    occCountF_update_erase_sum]
  simp [he, h0]

theorem occCountF_update_clear (cap i : Nat) (hi : i < cap) (md : Nat → MetaDataEntry)
    (e : MetaDataEntry) (h2 : (md i).status = 2) (he : e.status ≠ 2) :
    occCountF cap md = occCountF cap (fun j => if j = i then e else md j) + 1 := by
  rw [occCountF_split cap i hi md, occCountF_split cap i hi (fun j => if j = i then e else md j),
    occCountF_update_erase_sum]
  simp [he, h2]

theorem occCountF_pos (cap i : Nat) (hi : i < cap) (md : Nat → MetaDataEntry)
    (h2 : (md i).status = 2) : 1 ≤ occCountF cap md := by
  rw [occCountF_split cap i hi md]
  simp [h2]

theorem occCountF_succ (j : Nat) (md : Nat → MetaDataEntry) :
    occCountF (j + 1) md = occCountF j md + (if (md j).status = 2 then 1 else 0) := by
  unfold occCountF
  rw [Finset.range_succ, Finset.filter_insert]
  by_cases h : (md j).status = 2
  · rw [if_pos h, Finset.card_insert_of_not_mem (by simp)]
    simp [h]
  · rw [if_neg h]
    simp [h]


/-- For any arena of at least 1536 bytes (the initial layout: 1024 bytes of
metadata, cacheline-aligned, then 512 bytes of values) construction
succeeds and produces exactly initRec. -/
theorem mkTable_char {A : Nat} (hA : 1536 ≤ A) : mkTable A = .ok (initRec A) := by
  unfold mkTable initRec
  have hvo : align64 (64 * sizeofMeta) = 1024 := by decide
  simp only [hvo]
  rw [if_neg (by simp [sizeofMeta]; omega), if_neg (by simp [sizeofValue]; omega)]
  have hb : bumpLoop A (1024 + 64 * sizeofValue) 0 (1024 + 64 * sizeofValue) = .ok 1536 := by
    have he : (1024 + 64 * sizeofValue) = 1536 := by decide
    rw [he]
    exact bumpLoop_ok A 1536 0 1536 (by omega) (by omega) (by norm_num) (by norm_num) hA
  rw [hb]

/-- Conversely, a successful construction forces A >= 1536 and the initRec
state. -/
theorem mkTable_ok_inv {A : Nat} {t : Table} (ht : mkTable A = .ok t) :
    1536 ≤ A /\ t = initRec A := by
  by_cases hA : 1536 ≤ A
  · rw [mkTable_char hA] at ht
    cases ht
    exact ⟨hA, rfl⟩
  · exfalso
    unfold mkTable at ht
    have hvo : align64 (64 * sizeofMeta) = 1024 := by decide
    simp only [hvo] at ht
    by_cases h1 : 0 + 64 * sizeofMeta > A
    · rw [if_pos h1] at ht
      cases ht
    · rw [if_neg h1, if_pos (by simp [sizeofValue]; omega)] at ht
      cases ht

/-- The freshly constructed table satisfies the state invariant. -/
theorem inv_initRec (h : Nat → Nat) {A : Nat} (hA : 1536 ≤ A) : Inv h (initRec A) := by
  refine ⟨⟨6, by norm_num, rfl⟩, ?_, ?_, rfl, hA, ⟨16, rfl⟩⟩
  · intro i _
    left
    rfl
  · show (0 : Nat) = occCount (initRec A)
    unfold occCount
    rw [show (initRec A).capacity = 64 from rfl]
    exact (occCountF_zero_md 64).symm


/-! ### One-step reduction lemmas for the probe loops -/

theorem getLoop_step_empty (h : Nat → Nat) (k cap fuel pos pd : Nat) (t : Table)
    (h0 : (t.metadata pos).status = 0) :
    getLoop h k cap (fuel + 1) pos pd t = some none := by
  simp only [getLoop]
  rw [if_pos h0]

theorem getLoop_step_hit (h : Nat → Nat) (k cap fuel pos pd : Nat) (t : Table)
    (h2 : (t.metadata pos).status = 2) (hk : (t.metadata pos).key = k) :
    getLoop h k cap (fuel + 1) pos pd t = some (some (t.values pos)) := by
  simp only [getLoop]
  rw [if_neg (by omega), if_pos ⟨h2, hk⟩]

theorem getLoop_step_early (h : Nat → Nat) (k cap fuel pos pd : Nat) (t : Table)
    (h0 : (t.metadata pos).status ≠ 0)
    (hk : ¬((t.metadata pos).status = 2 ∧ (t.metadata pos).key = k))
    (hpd : (t.metadata pos).probe_dist < pd) :
    getLoop h k cap (fuel + 1) pos pd t = some none := by
  simp only [getLoop]
  rw [if_neg h0, if_neg hk, if_pos hpd]

theorem getLoop_step_advance (h : Nat → Nat) (k cap fuel pos pd : Nat) (t : Table)
    (h0 : (t.metadata pos).status ≠ 0)
    (hk : ¬((t.metadata pos).status = 2 ∧ (t.metadata pos).key = k))
    (hpd : ¬ (t.metadata pos).probe_dist < pd) :
    getLoop h k cap (fuel + 1) pos pd t =
      getLoop h k cap fuel ((pos + 1) &&& (cap - 1)) ((pd + 1) % 65536) t := by
  simp only [getLoop]
  rw [if_neg h0, if_neg hk, if_neg hpd]

/-- On an invariant-satisfying state the probe loop of get decides within
two steps and returns the abstract lookup. -/
theorem getLoop_char (h : Nat → Nat) (k : Nat) {t : Table} (hi : Inv h t) :
    ∀ fuel, 2 ≤ fuel →
      getLoop h k t.capacity fuel (home h t.capacity k) 0 t =
        some (tableLookup h t k) := by
  obtain ⟨m, hm6, hcap⟩ := hi.cap_pow
  have hcap2 : 2 ≤ t.capacity := by
    rw [hcap]
    calc 2 = 2 ^ 1 := rfl
    _ ≤ 2 ^ m := Nat.pow_le_pow_right (by norm_num) (by omega)
  intro fuel hfuel
  obtain ⟨f, rfl⟩ : ∃ f, fuel = f + 2 := ⟨fuel - 2, by omega⟩
  have hp0 : home h t.capacity k < t.capacity := by
    rw [hcap]
    exact home_lt h m k
  set p0 := home h t.capacity k with hp0def
  rcases hi.slots p0 hp0 with hL | ⟨h2, hpd0, hhome⟩
  · rw [getLoop_step_empty h k _ _ _ _ t hL]
    unfold tableLookup
    rw [if_neg (by rw [← hp0def]; rintro ⟨ha, _⟩; omega)]
  · by_cases hk : (t.metadata p0).key = k
    · rw [getLoop_step_hit h k _ _ _ _ t h2 hk]
      unfold tableLookup
      rw [if_pos (by rw [← hp0def]; exact ⟨h2, hk⟩)]
    · have hcond : ¬((t.metadata p0).status = 2 ∧ (t.metadata p0).key = k) := by
        rintro ⟨_, hc⟩
        exact hk hc
      have hlook : tableLookup h t k = none := by
        unfold tableLookup
        rw [if_neg (by rw [← hp0def]; exact hcond)]
      rw [hlook, getLoop_step_advance h k _ _ _ _ t (by omega) hcond (by omega)]
      have hstep : (p0 + 1) &&& (t.capacity - 1) = (p0 + 1) % t.capacity := by
        rw [hcap]
        exact step_mask p0 m
      rw [hstep]
      set p1 := (p0 + 1) % t.capacity with hp1def
      have hp1 : p1 < t.capacity := Nat.mod_lt _ (by omega)
      have hne : p1 ≠ p0 := succ_mod_ne hcap2 hp0
      rcases hi.slots p1 hp1 with hL1 | ⟨h2a, hpd1, hhome1⟩
      · rw [getLoop_step_empty h k _ _ _ _ t hL1]
      · have hk1 : (t.metadata p1).key ≠ k := by
          intro hkk
          apply hne
          rw [← hhome1, hkk, hp0def]
        rw [getLoop_step_early h k _ _ _ _ t (by omega)
          (by rintro ⟨_, hc⟩; exact hk1 hc) (by omega)]

/-- On an invariant-satisfying state, get returns exactly the abstract
lookup. -/
theorem getM_char (h : Nat → Nat) (k : Nat) {t : Table} (hi : Inv h t) :
    getM h k t = some (tableLookup h t k) := by
  obtain ⟨m, hm6, hcap⟩ := hi.cap_pow
  have hcap2 : 2 ≤ t.capacity := by
    rw [hcap]
    calc 2 = 2 ^ 1 := rfl
    _ ≤ 2 ^ m := Nat.pow_le_pow_right (by norm_num) (by omega)
  unfold getM
  rw [if_neg (by omega)]
  exact getLoop_char h k hi t.capacity hcap2


/-! ### One-step reduction lemmas for erase and its backward-shift loop -/

theorem eraseLoop_step_empty (h : Nat → Nat) (k cap fuel pos pd : Nat) (t : Table)
    (h0 : (t.metadata pos).status = 0) :
    eraseLoop h k cap (fuel + 1) pos pd t = some (false, t) := by
  simp only [eraseLoop]
  rw [if_pos h0]

theorem eraseLoop_step_early (h : Nat → Nat) (k cap fuel pos pd : Nat) (t : Table)
    (h0 : (t.metadata pos).status ≠ 0)
    (hk : ¬((t.metadata pos).status = 2 ∧ (t.metadata pos).key = k))
    (hpd : (t.metadata pos).probe_dist < pd) :
    eraseLoop h k cap (fuel + 1) pos pd t = some (false, t) := by
  simp only [eraseLoop]
  rw [if_neg h0, if_neg hk, if_pos hpd]

theorem eraseLoop_step_advance (h : Nat → Nat) (k cap fuel pos pd : Nat) (t : Table)
    (h0 : (t.metadata pos).status ≠ 0)
    (hk : ¬((t.metadata pos).status = 2 ∧ (t.metadata pos).key = k))
    (hpd : ¬ (t.metadata pos).probe_dist < pd) :
    eraseLoop h k cap (fuel + 1) pos pd t =
      eraseLoop h k cap fuel ((pos + 1) &&& (cap - 1)) ((pd + 1) % 65536) t := by
  simp only [eraseLoop]
  rw [if_neg h0, if_neg hk, if_neg hpd]

theorem shiftLoop_stop (cap fuel curr : Nat) (t : Table)
    (hstop : (t.metadata ((curr + 1) &&& (cap - 1))).status ≠ 2 ∨
      (t.metadata ((curr + 1) &&& (cap - 1))).probe_dist = 0) :
    shiftLoop cap (fuel + 1) curr t =
      some { t with metadata := fun j => if j = curr then zeroEntry else t.metadata j } := by
  simp only [shiftLoop]
  rw [if_pos hstop]

theorem eraseLoop_step_found_stop (h : Nat → Nat) (k cap fuel pos pd : Nat) (t : Table)
    (hcap : 1 ≤ cap)
    (h2 : (t.metadata pos).status = 2) (hk : (t.metadata pos).key = k)
    (hstop : (t.metadata ((pos + 1) &&& (cap - 1))).status ≠ 2 ∨
      (t.metadata ((pos + 1) &&& (cap - 1))).probe_dist = 0) :
    eraseLoop h k cap (fuel + 1) pos pd t =
      some (true,
        { t with
          metadata := fun j => if j = pos then zeroEntry else t.metadata j
          size := t.size - 1 }) := by
  simp only [eraseLoop]
  rw [if_neg (by omega), if_pos ⟨h2, hk⟩]
  have hfl := congrArg (fun fl => shiftLoop cap fl pos t) (Nat.sub_add_cancel hcap).symm
  simp only at hfl
  rw [hfl, shiftLoop_stop cap (cap - 1) pos t hstop]

/-- Combined characterization of erase on an invariant-satisfying state:
the walk decides within two probes, removal clears exactly the ideal slot
(the backward shift stops immediately because every resident entry already
has probe distance 0), and the invariant is preserved. -/
theorem eraseM_master (h : Nat → Nat) (k : Nat) {t : Table} (hi : Inv h t) :
    ∃ b t', eraseM h k t = some (b, t') ∧ Inv h t' ∧
      t'.arenaUsed = t.arenaUsed ∧ t'.arenaSize = t.arenaSize ∧
      t'.capacity = t.capacity ∧
      ((b = true) ↔ tableLookup h t k ≠ none) ∧
      (b = false → t' = t) ∧
      (b = true → t'.size + 1 = t.size ∧ tableLookup h t' k = none) := by
  obtain ⟨m, hm6, hcap⟩ := hi.cap_pow
  have hcap2 : 2 ≤ t.capacity := by
    rw [hcap]
    calc 2 = 2 ^ 1 := rfl
    _ ≤ 2 ^ m := Nat.pow_le_pow_right (by norm_num) (by omega)
  have hp0 : home h t.capacity k < t.capacity := by
    rw [hcap]
    exact home_lt h m k
  have hstep : ∀ p : Nat, (p + 1) &&& (t.capacity - 1) = (p + 1) % t.capacity := by
    intro p
    rw [hcap]
    exact step_mask p m
  have hrun : ∀ fuel, 2 ≤ fuel → ∃ b t',
      eraseLoop h k t.capacity fuel (home h t.capacity k) 0 t = some (b, t') ∧ Inv h t' ∧
      t'.arenaUsed = t.arenaUsed ∧ t'.arenaSize = t.arenaSize ∧
      t'.capacity = t.capacity ∧
      ((b = true) ↔ tableLookup h t k ≠ none) ∧
      (b = false → t' = t) ∧
      (b = true → t'.size + 1 = t.size ∧ tableLookup h t' k = none) := by
    intro fuel hfuel
    obtain ⟨f, rfl⟩ : ∃ f, fuel = f + 2 := ⟨fuel - 2, by omega⟩
    set p0 := home h t.capacity k with hp0def
    rcases hi.slots p0 hp0 with hL | ⟨h2, hpd0, hhome⟩
    · -- ideal slot empty: key absent, no state change
      refine ⟨false, t, ?_, hi, rfl, rfl, rfl, ?_, fun _ => rfl, fun hc => absurd hc (by decide)⟩
      · exact eraseLoop_step_empty h k _ _ _ _ t hL
      · have hlooknone : tableLookup h t k = none := by
          unfold tableLookup
          rw [if_neg (by rw [← hp0def]; rintro ⟨ha, _⟩; omega)]
        simp [hlooknone]
    · by_cases hk : (t.metadata p0).key = k
      · -- key found at its ideal slot: backward shift stops at once
        have hlook : tableLookup h t k = some (t.values p0) := by
          unfold tableLookup
          rw [if_pos (by rw [← hp0def]; exact ⟨h2, hk⟩)]
        have hstop : (t.metadata ((p0 + 1) &&& (t.capacity - 1))).status ≠ 2 ∨
            (t.metadata ((p0 + 1) &&& (t.capacity - 1))).probe_dist = 0 := by
          rw [hstep p0]
          have hp1 : (p0 + 1) % t.capacity < t.capacity := Nat.mod_lt _ (by omega)
          rcases hi.slots _ hp1 with hE | ⟨_, hpd1, _⟩
          · left
            omega
          · right
            exact hpd1
        set t' : Table :=
          { t with
            metadata := fun j => if j = p0 then zeroEntry else t.metadata j
            size := t.size - 1 } with hdt
        have hsz1 : 1 ≤ t.size := by
          rw [hi.size_eq]
          exact occCountF_pos t.capacity p0 hp0 t.metadata h2
        have hocc : occCountF t.capacity t.metadata =
            occCountF t.capacity (fun j => if j = p0 then zeroEntry else t.metadata j) + 1 :=
          occCountF_update_clear t.capacity p0 hp0 t.metadata zeroEntry h2 (by decide)
        have hinv : Inv h t' := by
          refine ⟨⟨m, hm6, hcap⟩, ?_, ?_, hi.used_eq, hi.used_le, hi.voff_align⟩
          · intro i hilt
            by_cases hip : i = p0
            · left
              simp [hdt, hip, zeroEntry]
            · have := hi.slots i hilt
              simpa [hdt, hip] using this
          · show t.size - 1 = occCount t'
            unfold occCount
            have hsq := hi.size_eq
            unfold occCount at hsq
            simp only [hdt]
            omega
        refine ⟨true, t', ?_, hinv, rfl, rfl, rfl, by simp [hlook], fun hc => absurd hc (by decide), ?_⟩
        · exact eraseLoop_step_found_stop h k _ _ _ _ t (by omega) h2 hk hstop
        · intro _
          constructor
          · show t.size - 1 + 1 = t.size
            omega
          · unfold tableLookup
            rw [if_neg]
            show ¬((t'.metadata (home h t'.capacity k)).status = 2 ∧ _)
            have : t'.capacity = t.capacity := rfl
            rw [this, ← hp0def]
            have : t'.metadata p0 = zeroEntry := by simp [hdt]
            rw [this]
            rintro ⟨ha, _⟩
            exact absurd ha (by decide)
      · -- ideal slot holds a different key: absence proven in two probes
        have hlook : tableLookup h t k = none := by
          unfold tableLookup
          rw [if_neg (by rw [← hp0def]; rintro ⟨_, hc⟩; exact hk hc)]
        have hred : eraseLoop h k t.capacity (f + 2) p0 0 t = some (false, t) := by
          rw [eraseLoop_step_advance h k _ _ _ _ t (by omega)
            (by rintro ⟨_, hc⟩; exact hk hc) (by omega), hstep p0]
          set p1 := (p0 + 1) % t.capacity with hp1def
          have hp1 : p1 < t.capacity := Nat.mod_lt _ (by omega)
          have hne : p1 ≠ p0 := succ_mod_ne hcap2 hp0
          rcases hi.slots p1 hp1 with hL1 | ⟨h2a, hpd1, hhome1⟩
          · exact eraseLoop_step_empty h k _ _ _ _ t hL1
          · have hk1 : (t.metadata p1).key ≠ k := by
              intro hkk
              apply hne
              rw [← hhome1, hkk, hp0def]
            exact eraseLoop_step_early h k _ _ _ _ t (by omega)
              (by rintro ⟨_, hc⟩; exact hk1 hc) (by omega)
        refine ⟨false, t, hred, hi, rfl, rfl, rfl, by simp [hlook], fun _ => rfl, fun hc => absurd hc (by decide)⟩
  obtain ⟨b, t', hrun2⟩ := hrun t.capacity hcap2
  refine ⟨b, t', ?_, hrun2.2⟩
  unfold eraseM
  rw [if_neg (by omega)]
  exact hrun2.1


/-! ### Characterization of the resize re-insertion sweep -/

theorem resizeInsertLoop_step_empty (cap fuel pos pd wkey wval : Nat) (t : Table)
    (h0 : (t.metadata pos).status = 0) :
    resizeInsertLoop cap (fuel + 1) pos pd wkey wval t =
      some
        { t with
          metadata := fun j => if j = pos then ⟨wkey, pd, 2⟩ else t.metadata j
          values := fun j => if j = pos then wval else t.values j
          size := t.size + 1 } := by
  simp only [resizeInsertLoop]
  rw [if_pos h0]

/-- The re-insertion sweep of resize, characterized for the states this
program reaches: all old occupied entries sit at pairwise distinct ideal
slots of the old capacity 2^m, hence at pairwise distinct ideal slots of the
new capacity 2^(m+1), so every re-insert lands at its (still empty) ideal
slot with probe distance 0 in a single probe. -/
theorem reinsertLoop_char (h : Nat → Nat) (oldMd : Nat → MetaDataEntry) (oldVals : Nat → Nat)
    (m : Nat)
    (hslots : ∀ i, i < 2 ^ m → (oldMd i).status = 0 ∨
        ((oldMd i).status = 2 ∧ home h (2 ^ m) (oldMd i).key = i))
    (t1 : Table) (hcap1 : t1.capacity = 2 ^ (m + 1))
    (hmd1 : ∀ s, t1.metadata s = zeroEntry) (hsz1 : t1.size = 0) :
    ∀ j, j ≤ 2 ^ m → ∃ t2, reinsertLoop h oldMd oldVals j t1 = some t2 ∧
      t2.capacity = t1.capacity ∧
      t2.metadataOffset = t1.metadataOffset ∧ t2.valuesOffset = t1.valuesOffset ∧
      t2.arenaUsed = t1.arenaUsed ∧ t2.arenaSize = t1.arenaSize ∧
      t2.size = occCountF j oldMd ∧
      t2.size = occCountF (2 ^ (m + 1)) t2.metadata ∧
      (∀ s, s < 2 ^ (m + 1) →
        (t2.metadata s).status = 0 ∨
        ((t2.metadata s).status = 2 ∧ (t2.metadata s).probe_dist = 0 ∧
          ∃ i, i < j ∧ (oldMd i).status = 2 ∧ home h (2 ^ (m + 1)) (oldMd i).key = s ∧
            (t2.metadata s).key = (oldMd i).key ∧ t2.values s = oldVals i)) ∧
      (∀ i, i < j → (oldMd i).status = 2 →
        (t2.metadata (home h (2 ^ (m + 1)) (oldMd i).key)).status = 2 ∧
        (t2.metadata (home h (2 ^ (m + 1)) (oldMd i).key)).key = (oldMd i).key ∧
        t2.values (home h (2 ^ (m + 1)) (oldMd i).key) = oldVals i) := by
  intro j
  induction j with
  | zero =>
    intro _
    refine ⟨t1, rfl, rfl, rfl, rfl, rfl, rfl, by simp [occCountF, hsz1], ?_, ?_, ?_⟩
    · rw [hsz1, occCountF_congr (2 ^ (m + 1)) t1.metadata (fun _ => zeroEntry) (fun s _ => hmd1 s),
        occCountF_zero_md]
    · intro s _
      left
      rw [hmd1 s]
      rfl
    · intro i hi
      omega
  | succ j ih =>
    intro hj1
    obtain ⟨t2, hrun, hc, hmo, hvo, hau, has, hszj, hszC, hq2, hq3⟩ := ih (by omega)
    have hjlt : j < 2 ^ m := by omega
    by_cases hst : (oldMd j).status = 2
    · -- re-insert index j
      set kj := (oldMd j).key with hkj
      set hs := home h (2 ^ (m + 1)) kj with hhs
      have hhs_lt : hs < 2 ^ (m + 1) := home_lt h (m + 1) kj
      -- distinct ideal slots: slot hs is still empty in t2
      have hempty : (t2.metadata hs).status = 0 := by
        rcases hq2 hs hhs_lt with h0 | ⟨_, _, i, hij, hist, hihome, _, _⟩
        · exact h0
        · exfalso
          have hi_eq : home h (2 ^ m) (oldMd i).key = i := by
            rcases hslots i (by omega) with hbad | ⟨_, he⟩
            · omega
            · exact he
          have hj_eq : home h (2 ^ m) kj = j := by
            rcases hslots j hjlt with hbad | ⟨_, he⟩
            · omega
            · exact he
          have e1 : home h (2 ^ m) (oldMd i).key = home h (2 ^ m) kj := by
            rw [home_reduce h m (oldMd i).key, home_reduce h m kj, hihome, ← hhs]
          omega
      have hins : insert_during_resize h kj (oldVals j) t2 =
          some
            { t2 with
              metadata := fun s => if s = hs then ⟨kj, 0, 2⟩ else t2.metadata s
              values := fun s => if s = hs then oldVals j else t2.values s
              size := t2.size + 1 } := by
        unfold insert_during_resize
        have hc1 : 1 ≤ t2.capacity := by
          rw [hc, hcap1]
          exact Nat.one_le_two_pow
        have hfl := congrArg
          (fun fl => resizeInsertLoop t2.capacity fl (home h t2.capacity kj) 0 kj (oldVals j) t2)
          (Nat.sub_add_cancel hc1).symm
        simp only at hfl
        rw [hfl, resizeInsertLoop_step_empty _ _ _ _ _ _ t2
          (by rw [hc, hcap1, ← hhs]; exact hempty)]
        rw [hc, hcap1, ← hhs]
      refine ⟨{ t2 with
          metadata := fun s => if s = hs then ⟨kj, 0, 2⟩ else t2.metadata s
          values := fun s => if s = hs then oldVals j else t2.values s
          size := t2.size + 1 }, ?_, hc, hmo, hvo, hau, has, ?_, ?_, ?_, ?_⟩
      · simp only [reinsertLoop]
        rw [hrun]
        show (if (oldMd j).status = 2 then
            insert_during_resize h kj (oldVals j) t2 else some t2) = _
        rw [if_pos hst, hins]
      · show t2.size + 1 = occCountF (j + 1) oldMd
        rw [occCountF_succ, if_pos hst, hszj]
      · show t2.size + 1 = occCountF (2 ^ (m + 1))
          (fun s => if s = hs then ⟨kj, 0, 2⟩ else t2.metadata s)
        rw [occCountF_update_new (2 ^ (m + 1)) hs hhs_lt t2.metadata ⟨kj, 0, 2⟩ (by omega) rfl,
          hszC]
      · intro s hsC
        by_cases hshs : s = hs
        · right
          subst hshs
          refine ⟨by simp, by simp, j, by omega, hst, by rw [← hkj, ← hhs], by simp [hkj], by simp⟩
        · simp only [if_neg hshs]
          rcases hq2 s hsC with h0 | ⟨ha, hb, i, hij, hist, hihome, hikey, hival⟩
          · left
            exact h0
          · right
            exact ⟨ha, hb, i, by omega, hist, hihome, hikey, hival⟩
      · intro i hi hist
        by_cases hij : i = j
        · subst hij
          rw [← hkj, ← hhs]
          exact ⟨by simp, by simp [hkj], by simp⟩
        · have hilt : i < j := by omega
          obtain ⟨ha, hb, hcv⟩ := hq3 i hilt hist
          have hne : home h (2 ^ (m + 1)) (oldMd i).key ≠ hs := by
            intro heq
            have hi_eq : home h (2 ^ m) (oldMd i).key = i := by
              rcases hslots i (by omega) with hbad | ⟨_, he⟩
              · omega
              · exact he
            have hj_eq : home h (2 ^ m) kj = j := by
              rcases hslots j hjlt with hbad | ⟨_, he⟩
              · omega
              · exact he
            have e1 : home h (2 ^ m) (oldMd i).key = home h (2 ^ m) kj := by
              rw [home_reduce h m (oldMd i).key, home_reduce h m kj, heq, ← hhs]
            omega
          refine ⟨?_, ?_, ?_⟩
          · simpa [hne] using ha
          · simpa [hne] using hb
          · simpa [hne] using hcv
    · -- index j empty in the old table: nothing to re-insert
      refine ⟨t2, ?_, hc, hmo, hvo, hau, has, ?_, hszC, ?_, ?_⟩
      · simp only [reinsertLoop]
        rw [hrun]
        show (if (oldMd j).status = 2 then
            insert_during_resize h (oldMd j).key (oldVals j) t2 else some t2) = some t2
        rw [if_neg hst]
      · rw [occCountF_succ, if_neg hst, hszj]
        omega
      · intro s hsC
        rcases hq2 s hsC with h0 | ⟨ha, hb, i, hij, hist, hihome, hikey, hival⟩
        · left
          exact h0
        · right
          exact ⟨ha, hb, i, by omega, hist, hihome, hikey, hival⟩
      · intro i hi hist
        have hilt : i < j := by
          rcases Nat.lt_or_ge i j with hx | hx
          · exact hx
          · have : i = j := by omega
            subst this
            exact absurd hist hst
        exact hq3 i hilt hist


/-- Characterization of resize on an invariant-satisfying state: either the
arena cannot hold the new layout and the allocate_at_offset bounds check
throws before the table is touched, or the capacity exactly doubles, the
key/value content, the size, and the arena bounds are preserved, the usage
counter only grows, and the invariant holds again. -/
theorem resizeM_char (h : Nat → Nat) {t : Table} (hi : Inv h t) :
    resizeM h t = .error ("out of bounds", t) ∨
    ∃ t', resizeM h t = .ok (some t') ∧ Inv h t' ∧
      t'.capacity = 2 * t.capacity ∧ t'.size = t.size ∧
      (∀ k, tableLookup h t' k = tableLookup h t k) ∧
      t.arenaUsed ≤ t'.arenaUsed ∧ t'.arenaSize = t.arenaSize := by
  obtain ⟨m, hm6, hcap⟩ := hi.cap_pow
  have hdvd64 : (64 : Nat) ∣ 2 ^ m := by
    have he : (64 : Nat) = 2 ^ 6 := by norm_num
    rw [he]
    exact pow_dvd_pow 2 (by omega)
  have hdvd_cap8 : 64 ∣ 2 ^ m * sizeofValue := Dvd.dvd.mul_right hdvd64 _
  have hdvd_used : 64 ∣ t.arenaUsed := by
    rw [hi.used_eq, hcap]
    exact Nat.dvd_add hi.voff_align hdvd_cap8
  have hdvd64s : (64 : Nat) ∣ 2 ^ (m + 1) := by
    have he : (64 : Nat) = 2 ^ 6 := by norm_num
    rw [he]
    exact pow_dvd_pow 2 (by omega)
  have hdvd_C16 : 64 ∣ 2 ^ (m + 1) * sizeofMeta := Dvd.dvd.mul_right hdvd64s _
  have hdvd_C8 : 64 ∣ 2 ^ (m + 1) * sizeofValue := Dvd.dvd.mul_right hdvd64s _
  have hC : next_pow2 (2 ^ m * 2) = 2 ^ (m + 1) := by
    rw [← pow_succ]
    exact next_pow2_two_pow (by omega)
  have hNMD : align64 (t.valuesOffset + 2 ^ m * sizeofValue) = t.arenaUsed := by
    rw [align64_of_dvd (Nat.dvd_add hi.voff_align hdvd_cap8)]
    rw [hi.used_eq, hcap]
  have hNV : align64 (t.arenaUsed + 2 ^ (m + 1) * sizeofMeta)
      = t.arenaUsed + 2 ^ (m + 1) * sizeofMeta :=
    align64_of_dvd (Nat.dvd_add hdvd_used hdvd_C16)
  simp only [resizeM, hcap, hC, hNMD, hNV]
  by_cases hc1 : t.arenaUsed + 2 ^ (m + 1) * sizeofMeta > t.arenaSize
  · left
    rw [if_pos hc1]
  by_cases hc2 : t.arenaUsed + 2 ^ (m + 1) * sizeofMeta + 2 ^ (m + 1) * sizeofValue > t.arenaSize
  · left
    rw [if_neg hc1, if_pos hc2]
  right
  rw [if_neg hc1, if_neg hc2]
  have hslots2 : ∀ i, i < 2 ^ m → (t.metadata i).status = 0 ∨
      ((t.metadata i).status = 2 ∧ home h (2 ^ m) (t.metadata i).key = i) := by
    intro i hilt
    rcases hi.slots i (by rw [hcap]; exact hilt) with h0 | ⟨h2, _, hh⟩
    · left
      exact h0
    · right
      rw [hcap] at hh
      exact ⟨h2, hh⟩
  obtain ⟨t2, hrun, hc, hmo, hvo, hau, has, hszj, hszC, hq2, hq3⟩ :=
    reinsertLoop_char h t.metadata t.values m hslots2
      { t with
        metadata := fun _ => zeroEntry
        values := fun _ => 0
        metadataOffset := t.arenaUsed
        valuesOffset := t.arenaUsed + 2 ^ (m + 1) * sizeofMeta
        capacity := 2 ^ (m + 1)
        size := 0 }
      rfl (fun _ => rfl) rfl (2 ^ m) le_rfl
  have hcC : t2.capacity = 2 ^ (m + 1) := hc
  have hauU : t2.arenaUsed = t.arenaUsed := hau
  have hasA : t2.arenaSize = t.arenaSize := has
  have hvoV : t2.valuesOffset = t.arenaUsed + 2 ^ (m + 1) * sizeofMeta := hvo
  rw [hrun]
  have hbump : bumpLoop t2.arenaSize
      (t.arenaUsed + 2 ^ (m + 1) * sizeofMeta + 2 ^ (m + 1) * sizeofValue - t2.arenaUsed)
      t2.arenaUsed
      (t.arenaUsed + 2 ^ (m + 1) * sizeofMeta + 2 ^ (m + 1) * sizeofValue)
      = .ok (t.arenaUsed + 2 ^ (m + 1) * sizeofMeta + 2 ^ (m + 1) * sizeofValue) := by
    rw [hauU, hasA]
    exact bumpLoop_ok t.arenaSize _ _ _ le_rfl (by omega) hdvd_used
      (Nat.dvd_add (Nat.dvd_add hdvd_used hdvd_C16) hdvd_C8) (by omega)
  refine ⟨{ t2 with
      arenaUsed := t.arenaUsed + 2 ^ (m + 1) * sizeofMeta + 2 ^ (m + 1) * sizeofValue },
    ?_, ?_, ?_, ?_, ?_, ?_, ?_⟩
  · show (match bumpLoop t2.arenaSize _ t2.arenaUsed _ with
      | .error (e, u) => Except.error (e, { t2 with arenaUsed := u })
      | .ok u => .ok (some { t2 with arenaUsed := u })) = _
    rw [hbump]
  · -- the invariant for the resized state
    refine ⟨⟨m + 1, by omega, hcC⟩, ?_, ?_, ?_, ?_, ?_⟩
    · intro i hilt
      rw [hcC] at hilt
      rcases hq2 i hilt with h0 | ⟨ha, hb, i2, hi2, hist, hihome, hikey, hival⟩
      · left
        exact h0
      · right
        refine ⟨ha, hb, ?_⟩
        show home h t2.capacity (t2.metadata i).key = i
        rw [hcC, hikey, hihome]
    · show t2.size = occCount _
      unfold occCount
      show t2.size = occCountF t2.capacity t2.metadata
      rw [hcC]
      exact hszC
    · show t.arenaUsed + 2 ^ (m + 1) * sizeofMeta + 2 ^ (m + 1) * sizeofValue
          = t2.valuesOffset + t2.capacity * sizeofValue
      rw [hvoV, hcC]
    · show t.arenaUsed + 2 ^ (m + 1) * sizeofMeta + 2 ^ (m + 1) * sizeofValue ≤ t2.arenaSize
      rw [hasA]
      omega
    · show 64 ∣ t2.valuesOffset
      rw [hvoV]
      exact Nat.dvd_add hdvd_used hdvd_C16
  · show t2.capacity = 2 * 2 ^ m
    rw [hcC]
    ring
  · show t2.size = t.size
    rw [hszj, hi.size_eq]
    unfold occCount
    rw [hcap]
  · intro k
    have hpm : home h (2 ^ m) k < 2 ^ m := home_lt h m k
    have hpC : home h (2 ^ (m + 1)) k < 2 ^ (m + 1) := home_lt h (m + 1) k
    have hlookup_new : tableLookup h
        { t2 with arenaUsed := t.arenaUsed + 2 ^ (m + 1) * sizeofMeta + 2 ^ (m + 1) * sizeofValue } k
        = (if (t2.metadata (home h (2 ^ (m + 1)) k)).status = 2 ∧
            (t2.metadata (home h (2 ^ (m + 1)) k)).key = k
          then some (t2.values (home h (2 ^ (m + 1)) k)) else none) := by
      unfold tableLookup
      show (if (t2.metadata (home h t2.capacity k)).status = 2 ∧
          (t2.metadata (home h t2.capacity k)).key = k
        then some (t2.values (home h t2.capacity k)) else none) = _
      rw [hcC]
    have hlookup_old : tableLookup h t k
        = (if (t.metadata (home h (2 ^ m) k)).status = 2 ∧
            (t.metadata (home h (2 ^ m) k)).key = k
          then some (t.values (home h (2 ^ m) k)) else none) := by
      unfold tableLookup
      rw [hcap]
    rw [hlookup_new, hlookup_old]
    by_cases hkey : (t.metadata (home h (2 ^ m) k)).status = 2 ∧
        (t.metadata (home h (2 ^ m) k)).key = k
    · obtain ⟨hs2, hk2⟩ := hkey
      obtain ⟨ha, hb, hcv⟩ := hq3 (home h (2 ^ m) k) hpm hs2
      rw [hk2] at ha hb hcv
      rw [if_pos ⟨ha, hb⟩, if_pos ⟨hs2, hk2⟩, hcv]
    · rw [if_neg hkey]
      rcases hq2 (home h (2 ^ (m + 1)) k) hpC with h0 | ⟨ha, hb, i2, hi2, hist, hihome, hikey, hival⟩
      · rw [if_neg (by rintro ⟨hx, _⟩; omega)]
      · by_cases hkk : (t.metadata i2).key = k
        · exfalso
          rcases hslots2 i2 hi2 with hbad | ⟨_, hhome2⟩
          · omega
          · rw [hkk] at hhome2
            apply hkey
            rw [hhome2]
            exact ⟨hist, hkk⟩
        · rw [if_neg (by rintro ⟨_, hx⟩; rw [hikey] at hx; exact hkk hx)]
  · show t.arenaUsed ≤ t.arenaUsed + 2 ^ (m + 1) * sizeofMeta + 2 ^ (m + 1) * sizeofValue
    omega
  · show t2.arenaSize = t.arenaSize
    exact hasA


/-! ### Characterization of insert -/

theorem insertLoop_step_empty (origVal cap fuel pos pd wkey wval : Nat) (t : Table)
    (h0 : (t.metadata pos).status = 0) :
    insertLoop origVal cap (fuel + 1) pos pd wkey wval t =
      some (true,
        { t with
          metadata := fun j => if j = pos then ⟨wkey, pd, 2⟩ else t.metadata j
          values := fun j => if j = pos then wval else t.values j
          size := t.size + 1 }) := by
  simp only [insertLoop]
  rw [if_pos h0]

theorem insertLoop_step_occ (origVal cap fuel pos pd wkey wval : Nat) (t : Table)
    (h2 : (t.metadata pos).status = 2) :
    insertLoop origVal cap (fuel + 1) pos pd wkey wval t =
      some (true, { t with values := fun j => if j = pos then origVal else t.values j }) := by
  simp only [insertLoop]
  rw [if_neg (by omega), if_pos h2]

/-- The probe loop of insert on an invariant-satisfying state always stops
at the very first slot it visits — the missing key comparison of src/table.h
line 184 means an occupied first slot is overwritten no matter which key it
holds — returns true, and preserves the invariant. -/
theorem insertLoop_char (h : Nat → Nat) (k v : Nat) {t : Table} (hi : Inv h t) :
    ∃ t', insertLoop v t.capacity t.capacity (home h t.capacity k) 0 k v t = some (true, t') ∧
      Inv h t' ∧ t'.size ≤ t.size + 1 ∧ t'.capacity = t.capacity ∧
      t'.arenaUsed = t.arenaUsed ∧ t'.arenaSize = t.arenaSize ∧
      (∀ w, tableLookup h t k = some w → tableLookup h t' k = some v ∧ t'.size = t.size) := by
  obtain ⟨m, hm6, hcap⟩ := hi.cap_pow
  have hp : home h t.capacity k < t.capacity := by
    rw [hcap]
    exact home_lt h m k
  have hcap1 : 1 ≤ t.capacity := by omega
  have hfl := congrArg
    (fun fl => insertLoop v t.capacity fl (home h t.capacity k) 0 k v t)
    (Nat.sub_add_cancel hcap1).symm
  simp only at hfl
  have hsz := hi.size_eq
  unfold occCount at hsz
  rcases hi.slots (home h t.capacity k) hp with h0 | ⟨h2, _, _⟩
  · refine ⟨{ t with
        metadata := fun j => if j = home h t.capacity k then ⟨k, 0, 2⟩ else t.metadata j
        values := fun j => if j = home h t.capacity k then v else t.values j
        size := t.size + 1 }, ?_, ?_, le_rfl, rfl, rfl, rfl, ?_⟩
    · rw [hfl]
      exact insertLoop_step_empty v t.capacity (t.capacity - 1) _ 0 k v t h0
    · refine ⟨⟨m, hm6, hcap⟩, ?_, ?_, hi.used_eq, hi.used_le, hi.voff_align⟩
      · intro i hilt
        by_cases hip : i = home h t.capacity k
        · right
          subst hip
          exact ⟨by simp, by simp, by simp⟩
        · rcases hi.slots i hilt with hx | ⟨ha, hb, hch⟩
          · left
            simpa [hip] using hx
          · right
            refine ⟨by simpa [hip] using ha, by simpa [hip] using hb, ?_⟩
            show home h t.capacity ((if i = home h t.capacity k then
              (⟨k, 0, 2⟩ : MetaDataEntry) else t.metadata i)).key = i
            rw [if_neg hip]
            exact hch
      · show t.size + 1 = occCountF t.capacity _
        rw [occCountF_update_new t.capacity (home h t.capacity k) hp t.metadata
          ⟨k, 0, 2⟩ (by omega) rfl]
        omega
    · intro w hw
      exfalso
      unfold tableLookup at hw
      rw [if_neg (by rintro ⟨hx, _⟩; omega)] at hw
      cases hw
  · refine ⟨{ t with values := fun j => if j = home h t.capacity k then v else t.values j },
      ?_, ?_, Nat.le_succ t.size, rfl, rfl, rfl, ?_⟩
    · rw [hfl]
      exact insertLoop_step_occ v t.capacity (t.capacity - 1) _ 0 k v t h2
    · refine ⟨⟨m, hm6, hcap⟩, ?_, ?_, hi.used_eq, hi.used_le, hi.voff_align⟩
      · intro i hilt
        exact hi.slots i hilt
      · show t.size = occCountF t.capacity t.metadata
        exact hsz
    · intro w hw
      unfold tableLookup at hw
      by_cases hcond : (t.metadata (home h t.capacity k)).status = 2 ∧
          (t.metadata (home h t.capacity k)).key = k
      · refine ⟨?_, rfl⟩
        unfold tableLookup
        show (if (t.metadata (home h t.capacity k)).status = 2 ∧
            (t.metadata (home h t.capacity k)).key = k
          then some ((fun j => if j = home h t.capacity k then v else t.values j)
            (home h t.capacity k)) else none) = some v
        rw [if_pos hcond]
        simp
      · rw [if_neg hcond] at hw
        cases hw

/-- Master characterization of insert on an invariant-satisfying state:
either the growth step hits the arena bound and the error propagates with
the table untouched, or insert returns true (it always does), preserves the
invariant, only grows the arena usage, doubles the capacity exactly when the
load-factor threshold was reached, and leaves at most one more entry than
the pre-probe threshold allows. -/
theorem insertM_master (h : Nat → Nat) (k v : Nat) {t : Table} (hi : Inv h t) :
    insertM h k v t = .error ("out of bounds", t) ∨
    ∃ t', insertM h k v t = .ok (some (true, t')) ∧ Inv h t' ∧
      t.arenaUsed ≤ t'.arenaUsed ∧ t'.arenaSize = t.arenaSize ∧
      20 * t'.size ≤ 17 * t'.capacity + 20 ∧
      t'.capacity = (if 17 * t.capacity < 20 * t.size then 2 * t.capacity else t.capacity) ∧
      (∀ w, tableLookup h t k = some w → tableLookup h t' k = some v ∧ t'.size = t.size) := by
  have hszcap : t.size ≤ t.capacity := by
    have hsz := hi.size_eq
    unfold occCount at hsz
    have := occCountF_le t.capacity t.metadata
    omega
  simp only [insertM]
  by_cases hth : 17 * t.capacity < 20 * t.size
  · rw [if_pos hth]
    rcases resizeM_char h hi with herr | ⟨t1, hok, hinv1, hcap1, hsz1, hlook1, hused1, hsizeA⟩
    · left
      rw [herr]
    · right
      obtain ⟨t2, hloop, hinv2, hsz2, hcap2, hau2, has2, hover2⟩ := insertLoop_char h k v hinv1
      refine ⟨t2, ?_, hinv2, ?_, ?_, ?_, ?_, ?_⟩
      · rw [hok]
        show (match insertLoop v t1.capacity t1.capacity (home h t1.capacity k) 0 k v t1 with
          | none => Except.ok none
          | some r => .ok (some r)) = Except.ok (some (true, t2))
        rw [hloop]
      · omega
      · rw [has2, hsizeA]
      · omega
      · rw [if_pos hth, hcap2, hcap1]
      · intro w hw
        have hw1 : tableLookup h t1 k = some w := by
          rw [hlook1 k]
          exact hw
        obtain ⟨ha, hb⟩ := hover2 w hw1
        exact ⟨ha, by omega⟩
  · rw [if_neg hth]
    right
    obtain ⟨t2, hloop, hinv2, hsz2, hcap2, hau2, has2, hover2⟩ := insertLoop_char h k v hi
    refine ⟨t2, ?_, hinv2, ?_, ?_, ?_, ?_, ?_⟩
    · show (match insertLoop v t.capacity t.capacity (home h t.capacity k) 0 k v t with
        | none => Except.ok none
        | some r => .ok (some r)) = Except.ok (some (true, t2))
      rw [hloop]
    · omega
    · exact has2
    · omega
    · rw [if_neg hth]
      exact hcap2
    · exact hover2

/-- C1.  The table's observable behavior does NOT match the reference
associative map: with two keys whose hashes collide in the low six bits
(identity hash, keys 0 and 64, fresh capacity-64 table), the second insert
overwrites the value stored for key 0 — insert stops at the first occupied
slot without comparing keys (src/table.h line 184) — so afterwards get(0)
returns the value that was inserted under key 64, get(64) returns absent,
and size() disagrees with the reference map.  The same collision exists for
the default XXH64 hash by pigeonhole on the 64 initial slots. -/
theorem c1_sequence_equivalence_fails :
    runOps idHash t0 [.ins 0 10, .ins 64 20, .get 0, .get 64] =
      [.ob true 1, .ob true 1, .og (some 20) 1, .og none 1] ∧
    refRun [.ins 0 10, .ins 64 20, .get 0, .get 64] =
      [.ob true 1, .ob true 2, .og (some 10) 2, .og (some 20) 2] ∧
    runOps idHash t0 [.ins 0 10, .ins 64 20, .get 0, .get 64] ≠
      refRun [.ins 0 10, .ins 64 20, .get 0, .get 64] :=
  ⟨by decide, by decide, by decide⟩

/-- C2.  The claimed insert contract fails on the code in both halves.
First, the returned boolean never distinguishes "inserted new" from
"updated existing": a fresh insert of key 0 and an overwriting re-insert of
key 0 both return true (src/table.h lines 182 and 186 both return true).
Second, for an absent key whose ideal slot is occupied by a different key
(key 64 below), insert returns true yet inserts nothing: size() stays 1,
get(64) stays absent, and the resident key 0 has its value clobbered,
because the status-2 branch never compares keys. -/
theorem c2_insert_update_contract_fails :
    runOps idHash t0 [.ins 0 10, .ins 0 11] = [.ob true 1, .ob true 1] ∧
    runOps idHash t0 [.ins 0 10, .ins 64 20, .get 64, .get 0] =
      [.ob true 1, .ob true 1, .og none 1, .og (some 20) 1] :=
  ⟨by decide, by decide⟩

/-- C3.  The round trip insert(k, v) then get(k) = v fails at a reachable
state: after insert(0, 10) on a fresh table (a reachable state), the call
insert(64, 20) returns true but a get(64) immediately afterwards returns
absent instead of 20, because insert stopped at the occupied slot 0 without
comparing keys (src/table.h line 184). -/
theorem c3_insert_get_roundtrip_fails :
    runOps idHash t0 [.ins 0 10, .ins 64 20, .get 64] =
      [.ob true 1, .ob true 1, .og none 1] ∧
    Obs.og none 1 ≠ Obs.og (some 20) 1 :=
  ⟨by decide, by decide⟩

/-- C4 counterexample.  After the 55th insert into the fresh capacity-64
table the claim's bound load_factor() ≤ LOAD_FACTOR_THRESHOLD is violated:
the pre-insert check sees 54/64 = 0.84375 < 0.85, so no growth happens, and
the insert returns with load factor 55/64 = 0.859375 > 0.85 (stated below in
the exact rational form 17·capacity < 20·size of the double comparison). -/
theorem c4_load_factor_bound_counterexample :
    (runOps idHash t0 c4ops).getLast? = some (.ob true 55) ∧
    (finalTable idHash t0 c4ops).capacity = 64 ∧
    (finalTable idHash t0 c4ops).size = 55 ∧
    17 * (finalTable idHash t0 c4ops).capacity <
      20 * (finalTable idHash t0 c4ops).size :=
  ⟨by decide, by decide, by decide, by decide⟩


/-! ### The reachable-state invariant -/

/-- Every reachable table state satisfies the state invariant: in this
program every stored entry sits at its ideal slot with probe distance 0
(a direct consequence of the missing key comparison in insert, which makes
displacement impossible), capacity is a power of two ≥ 64, size counts the
occupied slots, and the arena counter sits at the end of the layout. -/
theorem reach_inv {A : Nat} {h : Nat → Nat} {t : Table} (hr : Reach A h t) : Inv h t := by
  induction hr with
  | init t ht =>
    obtain ⟨hA, rfl⟩ := mkTable_ok_inv ht
    exact inv_initRec h hA
  | ins t k v b t' _ hins ih =>
    rcases insertM_master h k v ih with herr | ⟨t2, hok, hinv2, _, _, _, _, _⟩
    · rw [herr] at hins
      cases hins
    · rw [hok] at hins
      simp only [Except.ok.injEq, Option.some.injEq, Prod.mk.injEq] at hins
      obtain ⟨_, h2⟩ := hins
      subst h2
      exact hinv2
  | del t k b t' _ hdel ih =>
    obtain ⟨b2, t2, heq, hinv2, _⟩ := eraseM_master h k ih
    rw [heq] at hdel
    simp only [Option.some.injEq, Prod.mk.injEq] at hdel
    obtain ⟨_, h2⟩ := hdel
    subst h2
    exact hinv2

/-- Reachability of the fresh default-arena table. -/
theorem reach_t0 : Reach (2 ^ 30) idHash t0 := Reach.init t0 rfl

/-- Reachability of the table after insert(0, 10). -/
theorem reach_tIns : Reach (2 ^ 30) idHash tIns := Reach.ins t0 0 10 true tIns reach_t0 rfl

/-- C4 amended.  After any insert on a reachable state, the size exceeds the
threshold line by at most one entry: 20·size() ≤ 17·capacity() + 20,
i.e. load_factor() < LOAD_FACTOR_THRESHOLD + 1/capacity(); and growth has
already occurred (capacity doubled) whenever the pre-insert load factor had
reached the threshold. -/
theorem c4_load_factor_bound_amended {A : Nat} {h : Nat → Nat} {t : Table}
    (k v : Nat) {b : Bool} {t' : Table} (hr : Reach A h t)
    (hins : insertM h k v t = .ok (some (b, t'))) :
    20 * t'.size ≤ 17 * t'.capacity + 20 ∧
    (17 * t.capacity < 20 * t.size → t'.capacity = 2 * t.capacity) := by
  have hi := reach_inv hr
  rcases insertM_master h k v hi with herr | ⟨t2, hok, _, _, _, hbound, hcap, _⟩
  · rw [herr] at hins
    cases hins
  · rw [hok] at hins
    simp only [Except.ok.injEq, Option.some.injEq, Prod.mk.injEq] at hins
    obtain ⟨_, h2⟩ := hins
    subst h2
    refine ⟨hbound, ?_⟩
    intro hth
    rw [hcap, if_pos hth]

theorem c4_load_factor_bound_amended_witness :
    insertM idHash 0 10 t0 = .ok (some (true, tIns)) ∧
    (20 * tIns.size ≤ 17 * tIns.capacity + 20 ∧
      (17 * t0.capacity < 20 * t0.size → tIns.capacity = 2 * t0.capacity)) :=
  ⟨rfl, c4_load_factor_bound_amended 0 10 reach_t0 rfl⟩

/-- C2 amended.  What actually holds of insert's contract on reachable
states: the returned boolean is true for a new insertion AND for an update
(it does not distinguish the two), and when k is already present, insert
overwrites k's stored value in place and leaves size() unchanged. -/
theorem c2_insert_update_amended {A : Nat} {h : Nat → Nat} {t : Table}
    (k v : Nat) {b : Bool} {t' : Table} (hr : Reach A h t) (w : Nat)
    (hpresent : getM h k t = some (some w))
    (hins : insertM h k v t = .ok (some (b, t'))) :
    b = true ∧ t'.size = t.size ∧ getM h k t' = some (some v) := by
  have hi := reach_inv hr
  have hlook : tableLookup h t k = some w := by
    rw [getM_char h k hi] at hpresent
    simp only [Option.some.injEq] at hpresent
    exact hpresent
  rcases insertM_master h k v hi with herr | ⟨t2, hok, hinv2, _, _, _, _, hover⟩
  · rw [herr] at hins
    cases hins
  · rw [hok] at hins
    simp only [Except.ok.injEq, Option.some.injEq, Prod.mk.injEq] at hins
    obtain ⟨hb, h2⟩ := hins
    subst h2
    obtain ⟨ha, hsz⟩ := hover w hlook
    exact ⟨hb.symm, hsz, by rw [getM_char h k hinv2, ha]⟩

theorem c2_insert_update_amended_witness :
    getM idHash 0 tIns = some (some 10) ∧
    insertM idHash 0 11 tIns = .ok (some (true, tUpd)) ∧
    ((true : Bool) = true ∧ tUpd.size = tIns.size ∧ getM idHash 0 tUpd = some (some 11)) :=
  ⟨rfl, rfl, c2_insert_update_amended 0 11 reach_tIns 10 rfl rfl⟩

/-- C5.  On every reachable state, erase(k) returns true exactly when k was
present (observably: get(k) would have returned a value); erasing an absent
key returns false and leaves the entire table state unchanged; erasing a
present key decrements size() by one and a subsequent get(k) returns
absent. -/
theorem c5_erase_contract {A : Nat} {h : Nat → Nat} {t : Table} (k : Nat)
    {b : Bool} {t' : Table} (hr : Reach A h t)
    (he : eraseM h k t = some (b, t')) :
    ((b = true) ↔ ∃ v, getM h k t = some (some v)) ∧
    (b = false → t' = t) ∧
    (b = true → t'.size + 1 = t.size ∧ getM h k t' = some none) := by
  have hi := reach_inv hr
  obtain ⟨b2, t2, heq, hinv2, _, _, _, hiff, hfalse, htrue⟩ := eraseM_master h k hi
  rw [heq] at he
  simp only [Option.some.injEq, Prod.mk.injEq] at he
  obtain ⟨hb, ht2⟩ := he
  subst hb
  subst ht2
  refine ⟨?_, hfalse, ?_⟩
  · rw [hiff]
    constructor
    · intro hne
      rcases hx : tableLookup h t k with _ | v
      · exact absurd hx hne
      · exact ⟨v, by rw [getM_char h k hi, hx]⟩
    · rintro ⟨v, hv⟩
      rw [getM_char h k hi] at hv
      simp only [Option.some.injEq] at hv
      rw [hv]
      simp
  · intro hb2
    obtain ⟨hsz, hlook⟩ := htrue hb2
    exact ⟨hsz, by rw [getM_char h k hinv2, hlook]⟩

theorem c5_erase_contract_witness :
    eraseM idHash 0 tIns = some (true, tDel) ∧
    (((true = true) ↔ ∃ v, getM idHash 0 tIns = some (some v)) ∧
     ((true : Bool) = false → tDel = tIns) ∧
     ((true : Bool) = true → tDel.size + 1 = tIns.size ∧ getM idHash 0 tDel = some none)) :=
  ⟨rfl, c5_erase_contract 0 reach_tIns rfl⟩

/-- C6.  In every reachable state, for every occupied slot i holding key k,
the number of forward steps with wraparound from the ideal slot
hash(k) & (capacity - 1) to i equals the slot's stored probe_distance.
Reachability quantifies over all insert/erase histories, so this single
statement also expresses that insert, erase with backward-shift repair, and
the resize they may trigger all preserve the invariant.  (In this program
both sides are always 0: entries only ever sit at their ideal slots.) -/
theorem c6_probe_distance_invariant {A : Nat} {h : Nat → Nat} {t : Table}
    (hr : Reach A h t) :
    ∀ i, i < t.capacity → (t.metadata i).status = 2 →
      (i + t.capacity - home h t.capacity (t.metadata i).key) % t.capacity
        = (t.metadata i).probe_dist := by
  have hi := reach_inv hr
  intro i hilt h2
  rcases hi.slots i hilt with h0 | ⟨_, hpd, hhome⟩
  · omega
  · rw [hhome, hpd]
    have he : i + t.capacity - i = t.capacity := by omega
    rw [he, Nat.mod_self]

theorem c6_probe_distance_invariant_witness :
    (tIns.metadata 0).status = 2 ∧
    (0 + tIns.capacity - home idHash tIns.capacity (tIns.metadata 0).key) % tIns.capacity
      = (tIns.metadata 0).probe_dist :=
  ⟨rfl, c6_probe_distance_invariant reach_tIns 0 (by decide) rfl⟩

/-- C7.  On every reachable state, a successful growth step doubles
capacity() but leaves the observable content exactly unchanged: every get
answers the same before and after, size() is unchanged, and the stored probe
distances satisfy the probe-distance equation relative to the NEW capacity
(they are recomputed by re-insertion, not copied). -/
theorem c7_resize_preserves_content {A : Nat} {h : Nat → Nat} {t t' : Table}
    (hr : Reach A h t) (hrz : resizeM h t = .ok (some t')) :
    t'.capacity = 2 * t.capacity ∧ t'.size = t.size ∧
    (∀ k, getM h k t' = getM h k t) ∧
    (∀ i, i < t'.capacity → (t'.metadata i).status = 2 →
      (i + t'.capacity - home h t'.capacity (t'.metadata i).key) % t'.capacity
        = (t'.metadata i).probe_dist) := by
  have hi := reach_inv hr
  rcases resizeM_char h hi with herr | ⟨t2, hok, hinv2, hcap2, hsz2, hlook2, _, _⟩
  · rw [herr] at hrz
    cases hrz
  · rw [hok] at hrz
    simp only [Except.ok.injEq, Option.some.injEq] at hrz
    subst hrz
    refine ⟨hcap2, hsz2, ?_, ?_⟩
    · intro k
      rw [getM_char h k hinv2, getM_char h k hi, hlook2 k]
    · intro i hilt h2
      rcases hinv2.slots i hilt with h0 | ⟨_, hpd, hhome⟩
      · omega
      · rw [hhome, hpd]
        have he : i + t2.capacity - i = t2.capacity := by omega
        rw [he, Nat.mod_self]

theorem c7_resize_preserves_content_witness :
    resizeM idHash tIns = .ok (some tResz) ∧
    (tResz.capacity = 2 * tIns.capacity ∧ tResz.size = tIns.size ∧
     (∀ k, getM idHash k tResz = getM idHash k tIns) ∧
     (∀ i, i < tResz.capacity → (tResz.metadata i).status = 2 →
       (i + tResz.capacity - home idHash tResz.capacity (tResz.metadata i).key) % tResz.capacity
         = (tResz.metadata i).probe_dist)) :=
  ⟨rfl, c7_resize_preserves_content reach_tIns rfl⟩

/-- C8.  On every reachable state, capacity() is a power of two greater than
zero, and every successful growth step sets the new capacity to exactly
twice the old capacity. -/
theorem c8_capacity_power_of_two {A : Nat} {h : Nat → Nat} {t : Table}
    (hr : Reach A h t) :
    (∃ m, t.capacity = 2 ^ m) ∧ 0 < t.capacity ∧
    (∀ t', resizeM h t = .ok (some t') → t'.capacity = 2 * t.capacity) := by
  have hi := reach_inv hr
  obtain ⟨m, _, hcap⟩ := hi.cap_pow
  refine ⟨⟨m, hcap⟩, by rw [hcap]; exact Nat.pos_pow_of_pos m (by norm_num), ?_⟩
  intro t' hrz
  rcases resizeM_char h hi with herr | ⟨t2, hok, _, hcap2, _⟩
  · rw [herr] at hrz
    cases hrz
  · rw [hok] at hrz
    simp only [Except.ok.injEq, Option.some.injEq] at hrz
    subst hrz
    exact hcap2

theorem c8_capacity_power_of_two_witness :
    (∃ m, t0.capacity = 2 ^ m) ∧ 0 < t0.capacity ∧
    (∀ t', resizeM idHash t0 = .ok (some t') → t'.capacity = 2 * t0.capacity) :=
  c8_capacity_power_of_two reach_t0

/-- C9.  On every reachable state (where size() < capacity() always holds,
as the load-factor threshold check guarantees), the probing loop of insert
and the re-insertion loop used during resize terminate: with fuel equal to
the capacity — one full wrap of the probe sequence — neither ever exhausts
its fuel (the fuel-exhaustion marker .ok none is impossible), because a
probe stops at an empty slot or an occupied slot before wrapping. -/
theorem c9_probe_loops_terminate {A : Nat} {h : Nat → Nat} {t : Table}
    (hr : Reach A h t) (hsz : t.size < t.capacity) :
    (∀ k v, insertM h k v t ≠ .ok none) ∧ resizeM h t ≠ .ok none := by
  have hi := reach_inv hr
  constructor
  · intro k v hcon
    rcases insertM_master h k v hi with herr | ⟨t2, hok, _⟩
    · rw [herr] at hcon
      cases hcon
    · rw [hok] at hcon
      cases hcon
  · intro hcon
    rcases resizeM_char h hi with herr | ⟨t2, hok, _⟩
    · rw [herr] at hcon
      cases hcon
    · rw [hok] at hcon
      cases hcon

theorem c9_probe_loops_terminate_witness :
    t0.size < t0.capacity ∧
    ((∀ k v, insertM idHash k v t0 ≠ .ok none) ∧ resizeM idHash t0 ≠ .ok none) :=
  ⟨by decide, c9_probe_loops_terminate reach_t0 (by decide)⟩

/-- C10.  On every reachable state: the arena usage counter never exceeds
the arena capacity; an allocation whose cacheline-aligned size would push it
past the capacity raises the fatal "too big" error and otherwise advances
the counter by exactly the aligned size (never truncating); when a resource
error aborts an insert (necessarily one that triggered growth), the error
propagates with the table state bit-for-bit equal to the prior state; a
successful insert only ever grows the usage counter; and erase never touches
the arena. -/
theorem c10_arena_discipline {A : Nat} {h : Nat → Nat} {t : Table}
    (hr : Reach A h t) :
    t.arenaUsed ≤ t.arenaSize ∧
    (∀ bytes, t.arenaSize < t.arenaUsed + align64 bytes →
      arenaAllocateBytes t.arenaUsed t.arenaSize bytes = .error "too big") ∧
    (∀ bytes, t.arenaUsed + align64 bytes ≤ t.arenaSize →
      arenaAllocateBytes t.arenaUsed t.arenaSize bytes = .ok (t.arenaUsed + align64 bytes)) ∧
    (∀ k v e t', insertM h k v t = .error (e, t') → t' = t) ∧
    (∀ k v b t', insertM h k v t = .ok (some (b, t')) →
      t.arenaUsed ≤ t'.arenaUsed ∧ t'.arenaSize = t.arenaSize) ∧
    (∀ k b t', eraseM h k t = some (b, t') →
      t'.arenaUsed = t.arenaUsed ∧ t'.arenaSize = t.arenaSize) := by
  have hi := reach_inv hr
  refine ⟨hi.used_le, ?_, ?_, ?_, ?_, ?_⟩
  · intro bytes hlt
    unfold arenaAllocateBytes
    rw [if_pos hlt]
  · intro bytes hle
    unfold arenaAllocateBytes
    rw [if_neg (by omega)]
  · intro k v e t' hcon
    rcases insertM_master h k v hi with herr | ⟨t2, hok, _⟩
    · rw [herr] at hcon
      simp only [Except.error.injEq, Prod.mk.injEq] at hcon
      exact hcon.2.symm
    · rw [hok] at hcon
      cases hcon
  · intro k v b t' hok2
    rcases insertM_master h k v hi with herr | ⟨t2, hok, _, hused, hsize, _⟩
    · rw [herr] at hok2
      cases hok2
    · rw [hok] at hok2
      simp only [Except.ok.injEq, Option.some.injEq, Prod.mk.injEq] at hok2
      obtain ⟨_, h2⟩ := hok2
      subst h2
      exact ⟨hused, hsize⟩
  · intro k b t' he
    obtain ⟨b2, t2, heq, _, hau, has, _⟩ := eraseM_master h k hi
    rw [heq] at he
    simp only [Option.some.injEq, Prod.mk.injEq] at he
    obtain ⟨_, h2⟩ := he
    subst h2
    exact ⟨hau, has⟩

theorem c10_arena_discipline_witness :
    t0.arenaUsed ≤ t0.arenaSize ∧
    (∀ bytes, t0.arenaSize < t0.arenaUsed + align64 bytes →
      arenaAllocateBytes t0.arenaUsed t0.arenaSize bytes = .error "too big") ∧
    (∀ bytes, t0.arenaUsed + align64 bytes ≤ t0.arenaSize →
      arenaAllocateBytes t0.arenaUsed t0.arenaSize bytes = .ok (t0.arenaUsed + align64 bytes)) ∧
    (∀ k v e t', insertM idHash k v t0 = .error (e, t') → t' = t0) ∧
    (∀ k v b t', insertM idHash k v t0 = .ok (some (b, t')) →
      t0.arenaUsed ≤ t'.arenaUsed ∧ t'.arenaSize = t0.arenaSize) ∧
    (∀ k b t', eraseM idHash k t0 = some (b, t') →
      t'.arenaUsed = t0.arenaUsed ∧ t'.arenaSize = t0.arenaSize) :=
  c10_arena_discipline reach_t0

end OpenAddr
